import Mathlib

/-!
Verification development for the menu / keyboard-shortcut module
(`menu.py`) of the IEP (pyzo) code editor.

Python strings are modelled as `List Char` (`Str` below); the
configuration mapping `iep.config.shortcuts` (a dict from per-action
path names to shortcut strings) is modelled as an association list
with distinct keys.  Every Python string primitive used by the module
(`replace`, `lstrip`, `split`, `join`, `count`, `lower`, the two
`re.sub` patterns) is given its own executable embedding below, each
matching Python semantics: `replace` scans left to right replacing
non-overlapping occurrences, `split` on a one-character separator
keeps empty parts, `join` interleaves the separator, and the regex
`\(.*\)` matches greedily from a `(` to the last `)` that is not
separated from it by a newline.
-/

set_option maxRecDepth 20000

abbrev Str := List Char

/-- The set of characters stripped by Python `str.lstrip()` (those for
which `str.isspace()` holds), restricted to the code points Python
treats as whitespace. -/
def isPySpace (c : Char) : Bool :=
  c.toNat = 32 || c.toNat = 9 || c.toNat = 10 || c.toNat = 13 ||
  c.toNat = 11 || c.toNat = 12 ||
  (28 ≤ c.toNat && c.toNat ≤ 31) || c.toNat = 133 || c.toNat = 160 ||
  c.toNat = 0x1680 || (0x2000 ≤ c.toNat && c.toNat ≤ 0x200a) ||
  c.toNat = 0x2028 || c.toNat = 0x2029 || c.toNat = 0x202f ||
  c.toNat = 0x205f || c.toNat = 0x3000

/-- Python `s.lstrip()`: drop leading whitespace. -/
def pyLstrip (s : Str) : Str := s.dropWhile isPySpace

/-- Python `s.replace(a, '')` for a single character `a`: remove every
occurrence of `a`. -/
def pyRemoveChar (a : Char) : Str → Str
  | [] => []
  | c :: rest => if c = a then pyRemoveChar a rest else c :: pyRemoveChar a rest

/-- Python `s.replace(a, b)` for single characters: replace every
occurrence of `a` by `b`. -/
def pyReplaceChar (a b : Char) : Str → Str
  | [] => []
  | c :: rest =>
    (if c = a then b else c) :: pyReplaceChar a b rest

/-- One pass of Python `s.replace('  ', ' ')`: scan left to right,
collapsing each non-overlapping pair of spaces to one space. -/
def squeezeOnce : Str → Str
  | [] => []
  | [c] => [c]
  | x :: y :: rest =>
    if x = ' ' ∧ y = ' ' then ' ' :: squeezeOnce rest
    else x :: squeezeOnce (y :: rest)

/-- The `for i in range(10)` loop of `unwrapText`: iterate
`squeezeOnce` a given number of times. -/
def squeezeIter : Nat → Str → Str
  | 0, t => t
  | n + 1, t => squeezeIter n (squeezeOnce t)

/-- Python `s.replace('\n ', '\n')`: scan left to right, dropping the
space of each non-overlapping newline-space pair. -/
def dropSpaceAfterNl : Str → Str
  | [] => []
  | [c] => [c]
  | x :: y :: rest =>
    if x = '\n' ∧ y = ' ' then '\n' :: dropSpaceAfterNl rest
    else x :: dropSpaceAfterNl (y :: rest)

/-- `unwrapText` (menu.py lines 44-62): remove newlines, strip leading
whitespace, collapse runs of spaces (ten passes), turn carriage
returns into newlines, and drop a space following a newline. -/
def unwrapText (text : Str) : Str :=
  let t := pyRemoveChar '\n' text
  let t := pyLstrip t
  let t := squeezeIter 10 t
  let t := pyReplaceChar '\r' '\n' t
  dropSpaceAfterNl t

/-- Python `s.split(sep)` for a one-character separator: split at every
occurrence, keeping empty parts; the empty string yields `[""]`. -/
def pySplit (sep : Char) : Str → List Str
  | [] => [[]]
  | c :: rest =>
    if c = sep then [] :: pySplit sep rest
    else
      match pySplit sep rest with
      | [] => [[c]]
      | p :: ps => (c :: p) :: ps

/-- Python `sep.join(parts)` for a one-character separator. -/
def pyJoin (sep : Char) : List Str → Str
  | [] => []
  | [p] => p
  | p :: q :: ps => p ++ sep :: pyJoin sep (q :: ps)

/-- Python `s.lower()`, modelled on the ASCII range (the path names and
shortcut strings handled by the module are ASCII). -/
def pyLower (s : Str) : Str := s.map Char.toLower

theorem pySplit_ne_nil (sep : Char) (s : Str) : pySplit sep s ≠ [] := by
  induction s with
  | nil => simp [pySplit]
  | cons c rest ih =>
    by_cases h : c = sep
    · simp [pySplit, h]
    · cases hs : pySplit sep rest with
      | nil => exact absurd hs ih
      | cons p ps => simp [pySplit, h, hs]

theorem pySplit_length (sep : Char) (s : Str) :
    (pySplit sep s).length = s.count sep + 1 := by
  induction s with
  | nil => simp [pySplit]
  | cons c rest ih =>
    by_cases h : c = sep
    · subst h
      simp [pySplit, List.count_cons, ih]
    · cases hs : pySplit sep rest with
      | nil => exact absurd hs (pySplit_ne_nil sep rest)
      | cons p ps =>
        rw [hs] at ih
        simp only [List.length_cons] at ih
        simp [pySplit, h, hs, List.count_cons, Ne.symm h, ih]

theorem mem_pySplit_not_mem (sep : Char) (s : Str) :
    ∀ p ∈ pySplit sep s, sep ∉ p := by
  induction s with
  | nil => simp [pySplit]
  | cons c rest ih =>
    by_cases h : c = sep
    · simp only [pySplit, if_pos h]
      intro p hp
      rcases List.mem_cons.mp hp with h1 | h1
      · subst h1; simp
      · exact ih p h1
    · cases hs : pySplit sep rest with
      | nil => exact absurd hs (pySplit_ne_nil sep rest)
      | cons q ps =>
        simp only [pySplit, if_neg h, hs]
        intro p hp
        rcases List.mem_cons.mp hp with h1 | h1
        · subst h1
          intro hc
          rcases List.mem_cons.mp hc with h2 | h2
          · exact h h2.symm
          · exact ih q (hs ▸ List.mem_cons_self q ps) h2
        · exact ih p (hs ▸ List.mem_cons_of_mem q h1)

theorem pySplit_no_sep {sep : Char} {p : Str} (h : sep ∉ p) :
    pySplit sep p = [p] := by
  induction p with
  | nil => simp [pySplit]
  | cons c cs ih =>
    have hc : ¬ c = sep := fun hc => h (hc ▸ List.mem_cons_self c cs)
    have hcs : sep ∉ cs := fun hm => h (List.mem_cons_of_mem c hm)
    simp [pySplit, hc, ih hcs]

theorem pySplit_append_sep {sep : Char} {p t : Str} (h : sep ∉ p) :
    pySplit sep (p ++ sep :: t) = p :: pySplit sep t := by
  induction p with
  | nil =>
    cases hs : pySplit sep t with
    | nil => exact absurd hs (pySplit_ne_nil sep t)
    | cons q ps => simp [pySplit, hs]
  | cons c cs ih =>
    have hc : ¬ c = sep := fun hc => h (hc ▸ List.mem_cons_self c cs)
    have hcs : sep ∉ cs := fun hm => h (List.mem_cons_of_mem c hm)
    simp [pySplit, hc, ih hcs]

theorem pySplit_pyJoin (sep : Char) (parts : List Str)
    (hne : parts ≠ []) (h : ∀ p ∈ parts, sep ∉ p) :
    pySplit sep (pyJoin sep parts) = parts := by
  induction parts with
  | nil => exact absurd rfl hne
  | cons p ps ih =>
    cases ps with
    | nil =>
      simp only [pyJoin]
      exact pySplit_no_sep (h p (List.mem_cons_self p []))
    | cons q qs =>
      have hrest : pySplit sep (pyJoin sep (q :: qs)) = q :: qs :=
        ih (by simp) (fun r hr => h r (List.mem_cons_of_mem p hr))
      simp only [pyJoin]
      rw [pySplit_append_sep (h p (List.mem_cons_self p (q :: qs))), hrest]

theorem pyRemoveChar_eq_filter (a : Char) (s : Str) :
    pyRemoveChar a s = s.filter (fun c => c ≠ a) := by
  induction s with
  | nil => rfl
  | cons x rest ih =>
    by_cases h : x = a <;> simp [pyRemoveChar, h, ih, List.filter]

theorem mem_pyRemoveChar {a c : Char} {s : Str} :
    c ∈ pyRemoveChar a s ↔ c ∈ s ∧ c ≠ a := by
  rw [pyRemoveChar_eq_filter]
  simp [List.mem_filter]

theorem pyReplaceChar_eq_map (a b : Char) (s : Str) :
    pyReplaceChar a b s = s.map (fun c => if c = a then b else c) := by
  induction s with
  | nil => rfl
  | cons x rest ih => simp [pyReplaceChar, ih]

theorem not_mem_pyReplaceChar_self {a b : Char} (hab : a ≠ b) (s : Str) :
    a ∉ pyReplaceChar a b s := by
  rw [pyReplaceChar_eq_map]
  intro hm
  rcases List.mem_map.mp hm with ⟨c, _, hc⟩
  by_cases h : c = a
  · rw [if_pos h] at hc; exact hab hc.symm
  · rw [if_neg h] at hc; exact h hc

theorem mem_pyReplaceChar_target {a b : Char} {s : Str} (hnb : b ∉ s) :
    b ∈ pyReplaceChar a b s ↔ a ∈ s := by
  rw [pyReplaceChar_eq_map]
  constructor
  · intro hm
    rcases List.mem_map.mp hm with ⟨c, hcs, hc⟩
    by_cases h : c = a
    · exact h ▸ hcs
    · rw [if_neg h] at hc
      exact absurd (hc ▸ hcs) hnb
  · intro ha
    exact List.mem_map.mpr ⟨a, ha, by simp⟩

theorem mem_squeezeOnce {c : Char} (hc : c ≠ ' ') :
    ∀ l : Str, c ∈ squeezeOnce l ↔ c ∈ l
  | [] => by simp [squeezeOnce]
  | [x] => by simp [squeezeOnce]
  | x :: y :: rest => by
    by_cases h : x = ' ' ∧ y = ' '
    · obtain ⟨rfl, rfl⟩ := h
      have ih := mem_squeezeOnce hc rest
      simp [squeezeOnce, ih, hc]
    · have ih := mem_squeezeOnce hc (y :: rest)
      simp only [squeezeOnce, if_neg h, List.mem_cons] at ih ⊢
      rw [ih]

theorem mem_squeezeIter {c : Char} (hc : c ≠ ' ') (n : Nat) (l : Str) :
    c ∈ squeezeIter n l ↔ c ∈ l := by
  induction n generalizing l with
  | zero => simp [squeezeIter]
  | succ n ih =>
    simp only [squeezeIter]
    rw [ih, mem_squeezeOnce hc]

theorem mem_dropSpaceAfterNl {c : Char} (hc : c ≠ ' ') :
    ∀ l : Str, c ∈ dropSpaceAfterNl l ↔ c ∈ l
  | [] => by simp [dropSpaceAfterNl]
  | [x] => by simp [dropSpaceAfterNl]
  | x :: y :: rest => by
    by_cases h : x = '\n' ∧ y = ' '
    · obtain ⟨rfl, rfl⟩ := h
      have ih := mem_dropSpaceAfterNl hc rest
      simp [dropSpaceAfterNl, ih, hc]
    · have ih := mem_dropSpaceAfterNl hc (y :: rest)
      simp only [dropSpaceAfterNl, if_neg h, List.mem_cons] at ih ⊢
      rw [ih]

theorem mem_pyLstrip_of_mem {c : Char} {l : Str} (h : c ∈ pyLstrip l) : c ∈ l :=
  (List.dropWhile_sublist isPySpace).subset h

/-- C9: the amended newline behaviour of `unwrapText`.  The result never
contains a carriage return, and it contains a newline exactly when a
carriage return survives the leading-whitespace strip that `unwrapText`
performs after removing the input's newlines (`lstrip` also strips
leading carriage returns, so a `'\r'` in the leading whitespace does
not produce a newline). -/
theorem unwrapText_newlines (text : Str) :
    '\r' ∉ unwrapText text ∧
    ('\n' ∈ unwrapText text ↔ '\r' ∈ pyLstrip (pyRemoveChar '\n' text)) := by
  unfold unwrapText
  set t1 := pyRemoveChar '\n' text with ht1
  set t2 := pyLstrip t1 with ht2
  set t3 := squeezeIter 10 t2 with ht3
  set t4 := pyReplaceChar '\r' '\n' t3 with ht4
  have hn3 : '\n' ∉ t3 := by
    rw [mem_squeezeIter (by decide)]
    intro hm
    have := mem_pyLstrip_of_mem hm
    rw [mem_pyRemoveChar] at this
    exact this.2 rfl
  constructor
  · intro hm
    rw [mem_dropSpaceAfterNl (by decide)] at hm
    exact not_mem_pyReplaceChar_self (by decide) t3 hm
  · rw [mem_dropSpaceAfterNl (by decide), mem_pyReplaceChar_target hn3,
      mem_squeezeIter (by decide)]

/-! ## The shortcut configuration

`iep.config.shortcuts` is a dict from per-action path names
(e.g. `shell__clear_screen`) to shortcut strings (one shortcut, or two
joined by a comma).  It is modelled as an association list; the dict
operations below model Python `d[k]`, `k in d`, `d[k] = v` and
`del d[k]` (a dict has at most one binding per key, so deleting every
binding of the key is the same as deleting its binding). -/

abbrev Shortcuts := List (Str × Str)

/-- Python `d[k]` / `d.get(k)`: the value bound to `k`, if any. -/
def dictGet? : Shortcuts → Str → Option Str
  | [], _ => none
  | p :: rest, k => if p.1 = k then some p.2 else dictGet? rest k

/-- Python `d[k] = v`: overwrite the binding of `k` in place, or append
a new one. -/
def dictSet : Shortcuts → Str → Str → Shortcuts
  | [], k, v => [(k, v)]
  | p :: rest, k, v => if p.1 = k then (k, v) :: rest else p :: dictSet rest k v

/-- Python `del d[k]`. -/
def dictDel (cfg : Shortcuts) (k : Str) : Shortcuts :=
  cfg.filter (fun p => p.1 ≠ k)

theorem dictGet?_set_self (cfg : Shortcuts) (k v : Str) :
    dictGet? (dictSet cfg k v) k = some v := by
  induction cfg with
  | nil => simp [dictSet, dictGet?]
  | cons p rest ih =>
    obtain ⟨k1, v1⟩ := p
    by_cases h : k1 = k <;> simp [dictSet, dictGet?, h, ih]

theorem dictGet?_set_ne (cfg : Shortcuts) {k k2 : Str} (v : Str) (h : k2 ≠ k) :
    dictGet? (dictSet cfg k v) k2 = dictGet? cfg k2 := by
  induction cfg with
  | nil => simp [dictSet, dictGet?, Ne.symm h]
  | cons p rest ih =>
    obtain ⟨k1, v1⟩ := p
    by_cases hp : k1 = k
    · subst hp
      simp [dictSet, dictGet?, Ne.symm h]
    · by_cases hp2 : k1 = k2 <;> simp [dictSet, dictGet?, hp, hp2, h, ih]

theorem dictGet?_del_self (cfg : Shortcuts) (k : Str) :
    dictGet? (dictDel cfg k) k = none := by
  induction cfg with
  | nil => simp [dictDel, dictGet?]
  | cons p rest ih =>
    obtain ⟨k1, v1⟩ := p
    by_cases h : k1 = k <;>
      simp_all [dictDel, dictGet?, List.filter_cons, h]

theorem dictGet?_del_ne (cfg : Shortcuts) {k k2 : Str} (h : k2 ≠ k) :
    dictGet? (dictDel cfg k) k2 = dictGet? cfg k2 := by
  induction cfg with
  | nil => simp [dictDel, dictGet?]
  | cons p rest ih =>
    obtain ⟨k1, v1⟩ := p
    by_cases hp : k1 = k
    · have hp2 : k1 ≠ k2 := fun hc => h (hc ▸ hp)
      simp_all [dictDel, List.filter_cons, dictGet?, hp, hp2]
    · by_cases hp2 : k1 = k2 <;>
        simp_all [dictDel, List.filter_cons, dictGet?, hp, hp2]

theorem dictGet?_mem {cfg : Shortcuts} {k v : Str}
    (h : dictGet? cfg k = some v) : (k, v) ∈ cfg := by
  induction cfg with
  | nil => simp [dictGet?] at h
  | cons p rest ih =>
    obtain ⟨k1, v1⟩ := p
    by_cases hp : k1 = k
    · subst hp
      simp [dictGet?] at h
      subst h
      exact List.mem_cons_self _ rest
    · simp only [dictGet?, if_neg hp] at h
      exact List.mem_cons_of_mem _ (ih h)

/-- The value-to-tuple step of `getShortcut` (menu.py lines 1114-1120):
an absent value gives a pair of empty strings, a value without a comma
is the primary shortcut alone, and otherwise the value is split at the
commas.  The Python function builds the tuple
`tuple(shortcut.split(','))`, whose size is the number of parts, so
the result is modelled as a list of strings. -/
def parseShortcut (ov : Option Str) : List Str :=
  match ov with
  | none => [[], []]
  | some s => if s.count ',' ≠ 0 then pySplit ',' s else [s, []]

/-- `getShortcut` (menu.py lines 1108-1121): look the full name up in
`iep.config.shortcuts` and turn the stored value into the tuple of
shortcuts. -/
def getShortcut (cfg : Shortcuts) (fullName : Str) : List Str :=
  parseShortcut (dictGet? cfg fullName)

/-- `shortcuts[0]` on the result of `getShortcut`. -/
def slot0 (l : List Str) : Str := l.headD []

/-- `shortcuts[1]` on the result of `getShortcut`. -/
def slot1 (l : List Str) : Str := (l.drop 1).headD []

theorem parseShortcut_length_ge_two (ov : Option Str) :
    2 ≤ (parseShortcut ov).length := by
  cases ov with
  | none => simp [parseShortcut]
  | some s =>
    simp only [parseShortcut]
    by_cases hc : s.count ',' ≠ 0
    · rw [if_pos hc, pySplit_length]
      omega
    · simp [hc]

theorem mem_parseShortcut_no_comma (ov : Option Str) :
    ∀ q ∈ parseShortcut ov, (',' : Char) ∉ q := by
  cases ov with
  | none => simp [parseShortcut]
  | some s =>
    simp only [parseShortcut]
    by_cases hc : s.count ',' ≠ 0
    · rw [if_pos hc]
      exact mem_pySplit_not_mem ',' s
    · rw [if_neg hc]
      intro q hq
      rcases List.mem_cons.mp hq with h1 | h1
      · subst h1
        intro hm
        exact hc (List.count_pos_iff.mpr hm).ne'
      · simp at h1
        subst h1
        simp

theorem getShortcut_length_ge_two (cfg : Shortcuts) (k : Str) :
    2 ≤ (getShortcut cfg k).length :=
  parseShortcut_length_ge_two (dictGet? cfg k)

theorem mem_getShortcut_no_comma (cfg : Shortcuts) (k : Str) :
    ∀ q ∈ getShortcut cfg k, (',' : Char) ∉ q :=
  mem_parseShortcut_no_comma (dictGet? cfg k)

/-- C4 counterexample: a stored value with two commas makes
`getShortcut` return a three-element tuple, not a pair. -/
theorem getShortcut_not_pair_cex :
    (getShortcut [("x".data, "a,b,c".data)] "x".data).length = 3 := by decide

/-- C4 (amended): when every stored value contains at most one comma,
`getShortcut` returns exactly two strings: a pair of empty strings
when the name is not a key, `(s, '')` when the stored string `s` has
no comma, and the two comma-separated parts of `s` otherwise.  (A
stored value with two or more commas yields a longer tuple.) -/
theorem getShortcut_pair (cfg : Shortcuts) (k : Str)
    (hv : ∀ p ∈ cfg, p.2.count ',' ≤ 1) :
    (getShortcut cfg k).length = 2 ∧
    (dictGet? cfg k = none → getShortcut cfg k = [[], []]) ∧
    (∀ v, dictGet? cfg k = some v →
      (v.count ',' = 0 → getShortcut cfg k = [v, []]) ∧
      (v.count ',' ≠ 0 → getShortcut cfg k = pySplit ',' v)) := by
  refine ⟨?_, ?_, ?_⟩
  · cases h : dictGet? cfg k with
    | none => simp [getShortcut, parseShortcut, h]
    | some s =>
      simp only [getShortcut, parseShortcut, h]
      by_cases hc : s.count ',' ≠ 0
      · rw [if_pos hc, pySplit_length]
        have := hv (k, s) (dictGet?_mem h)
        simp at this
        omega
      · simp [hc]
  · intro h
    simp [getShortcut, parseShortcut, h]
  · intro v h
    constructor
    · intro hc
      simp [getShortcut, parseShortcut, h, hc]
    · intro hc
      simp [getShortcut, parseShortcut, h, hc]

/-- C4 witness: a configuration with a one-comma value, evaluated at a
present key and at an absent one. -/
theorem getShortcut_pair_witness :
    (getShortcut [("a".data, "x,y".data)] "a".data).length = 2 ∧
    (getShortcut [("a".data, "x,y".data)] "b".data).length = 2 :=
  ⟨(getShortcut_pair [("a".data, "x,y".data)] "a".data (by decide)).1,
   (getShortcut_pair [("a".data, "x,y".data)] "b".data (by decide)).1⟩

/-! ## Actions and `KeyMapper.setShortcut` -/

/-- The pieces of a `QAction` the module reads or writes: its text, the
`menuPath` attribute the module attaches, the shortcut list set by
`QAction.setShortcuts`, and the checkable/checked flags used by
`addGroupItem` / `addCheckItem`.  A freshly created action has no
shortcuts and is not checkable. -/
structure QAction where
  text : Str := []
  menuPath : Str := []
  shortcuts : List Str := []
  checkable : Bool := false
  checked : Bool := false
deriving DecidableEq

/-- `KeyMapper.setShortcut` (menu.py lines 32-40): when the action's
`menuPath` is a key of `iep.config.shortcuts`, bind the comma-split of
the stored string via `action.setShortcuts`; the configuration itself
is only read.  The pair returned makes the (un)changed configuration
explicit. -/
def setShortcut (cfg : Shortcuts) (a : QAction) : Shortcuts × QAction :=
  match dictGet? cfg a.menuPath with
  | some s => (cfg, { a with shortcuts := pySplit ',' s })
  | none => (cfg, a)

/-- C7: `setShortcut` never modifies `iep.config.shortcuts`; when the
action's `menuPath` is not a key it leaves the action unchanged as
well, and when it is a key it only replaces the action's shortcut list
with the comma-split of the stored string. -/
theorem setShortcut_frame (cfg : Shortcuts) (a : QAction) :
    (setShortcut cfg a).1 = cfg ∧
    (dictGet? cfg a.menuPath = none → setShortcut cfg a = (cfg, a)) ∧
    (∀ s, dictGet? cfg a.menuPath = some s →
      setShortcut cfg a = (cfg, { a with shortcuts := pySplit ',' s })) := by
  refine ⟨?_, ?_, ?_⟩
  · cases h : dictGet? cfg a.menuPath <;> simp [setShortcut, h]
  · intro h
    simp [setShortcut, h]
  · intro s h
    simp [setShortcut, h]

/-- C7 witness: a concrete configuration and action, with the key
absent and with it present. -/
theorem setShortcut_frame_witness :
    setShortcut [("a".data, "Ctrl+A".data)] { menuPath := "b".data } =
      ([("a".data, "Ctrl+A".data)], { menuPath := "b".data }) ∧
    setShortcut [("a".data, "Ctrl+A".data)] { menuPath := "a".data } =
      ([("a".data, "Ctrl+A".data)],
        { menuPath := "a".data, shortcuts := ["Ctrl+A".data] }) :=
  ⟨(setShortcut_frame [("a".data, "Ctrl+A".data)] { menuPath := "b".data }).2.1
      (by decide),
   by
    have := (setShortcut_frame [("a".data, "Ctrl+A".data)]
        { menuPath := "a".data }).2.2 "Ctrl+A".data (by decide)
    rw [this]
    decide⟩

/-! ## Path-name normalization

Both `Menu._createMenuPathName` (applied per component at action
creation) and `getFullName` (applied to the joined title chain by the
keymap dialog) normalize with the same steps; the two regex patterns
of the source are embedded here. -/

/-- The characters kept by `re.sub('[^a-zA-z_0-9]', '', ...)`.  The
character class `a-zA-z` spans the code points 65-122 (because of the
lowercase `z` after `A-`), so besides the letters it also keeps the
punctuation between `Z` and `a` (which includes `_`); `0-9` keeps the
digits. -/
def isValidNameChar (c : Char) : Bool :=
  (48 ≤ c.toNat && c.toNat ≤ 57) || (65 ≤ c.toNat && c.toNat ≤ 122)

/-- Scan of `re.sub('\(.*\)', '', s)`: at each `(` the greedy `.*`
(which cannot cross a newline) together with the final `\)` consumes
up to the last `)` on the same line, if there is one; otherwise the
scan moves one character ahead.  The fuel argument bounds the
recursion; the scan never consumes more than the remaining input, so
starting the fuel at the input length makes the zero-fuel case
unreachable. -/
def subBracketsAux : Nat → Str → Str
  | _, [] => []
  | 0, s => s
  | fuel + 1, c :: rest =>
    if c = '(' then
      match ((rest.takeWhile (fun x => x ≠ '\n')).reverse.findIdx?
          (fun x => x = ')')) with
      | some k =>
        subBracketsAux fuel
          (rest.drop ((rest.takeWhile (fun x => x ≠ '\n')).length - k))
      | none => c :: subBracketsAux fuel rest
    else c :: subBracketsAux fuel rest

/-- `re.sub('\(.*\)', '', s)`: remove every bracketed stretch. -/
def subBrackets (s : Str) : Str := subBracketsAux s.length s

/-- The Python test `name[0] in chars`.  Python raises `IndexError` on
an empty string (the module never constructs these names from empty
titles); the empty case is mapped to `false`. -/
def startsWithAny (chars : Str) : Str → Bool
  | [] => false
  | c :: _ => chars.contains c

/-- `re.sub(pattern, '', text, 999)` with a single-character-class
pattern performs at most 999 replacements: remove the first `k`
characters that fail the keep-predicate and leave the rest. -/
def removeUpTo (keep : Char → Bool) : Nat → Str → Str
  | _, [] => []
  | 0, s => s
  | k + 1, c :: rest =>
    if keep c then c :: removeUpTo keep (k + 1) rest
    else removeUpTo keep k rest

/-- `Menu._createMenuPathName` (menu.py lines 88-100): hide bracketed
text, turn spaces into underscores, prefix an underscore when the name
starts with a digit or underscore, drop invalid characters, and
lowercase. -/
def createMenuPathName (name : Str) : Str :=
  let n := subBrackets name
  let n := pyReplaceChar ' ' '_' n
  let n := if startsWithAny "0123456789_".data n then '_' :: n else n
  let n := n.filter isValidNameChar
  pyLower n

/-- Joining a list of components with `'__'`, as both the title walk of
`getFullName` and the `menuPath` concatenation produce. -/
def joinDunder : List Str → Str
  | [] => []
  | [p] => p
  | p :: q :: ps => p ++ '_' :: '_' :: joinDunder (q :: ps)

/-- `getFullName` (menu.py lines 1084-1105): join the action text onto
the chain of parent-menu titles with `'__'`, then normalize the joined
string.  Unlike `_createMenuPathName`, the digit test here does not
include the underscore, and the invalid-character removal is limited
to 999 replacements. -/
def getFullName (titles : List Str) (text : Str) : Str :=
  let t := joinDunder (titles ++ [text])
  let t := subBrackets t
  let t := pyReplaceChar ' ' '_' t
  let t := if startsWithAny "0123456789".data t then '_' :: t else t
  let t := removeUpTo isValidNameChar 999 t
  pyLower t

/-- The `menuPath` attribute an action created inside the given menu
chain receives (`Menu.__init__` lines 80-84 together with
`_connectActionShortcut` line 116): every component — each menu title
and the action text — is normalized separately with
`_createMenuPathName` and the results are joined with `'__'`. -/
def actionMenuPath (titles : List Str) (text : Str) : Str :=
  joinDunder ((titles ++ [text]).map createMenuPathName)

/-- C2: the two computations of the per-action path name disagree on
the `2 spaces` action of the File -> Indentation menu (built by
`IndentationMenu.build`, reachable from `buildMenus`): the stored
`menuPath` key gets an underscore prefixed to the digit-initial
component, while `getFullName` — used by the keymap dialog — applies
its digit test to the joined string, which starts with a letter.  The
dialog therefore edits a key that the shortcut binding never reads. -/
theorem fullName_ne_menuPath :
    actionMenuPath ["File".data, "Indentation".data] "2 spaces".data =
      "file__indentation___2_spaces".data ∧
    getFullName ["File".data, "Indentation".data] "2 spaces".data =
      "file__indentation__2_spaces".data ∧
    getFullName ["File".data, "Indentation".data] "2 spaces".data ≠
      actionMenuPath ["File".data, "Indentation".data] "2 spaces".data := by
  refine ⟨by decide, by decide, ?_⟩
  decide

/-! ## Menu construction -/

/-- The state of a `Menu` object relevant to the claims: the title set
by `Menu.__init__` and the `menuPath` attribute it computes. -/
structure MenuObj where
  title : Str
  menuPath : Str
deriving DecidableEq

/-- `Menu.__init__` (menu.py lines 67-86): store the title and compute
`menuPath` — the parent's path plus `'__'` when the parent is itself a
menu (a menu bar has no `menuPath` attribute, passed as `none` here),
followed by the normalized title.  The `ValueError` raised for a falsy
name is not modelled; every caller passes a non-empty literal. -/
def Menu.create (parentMenuPath : Option Str) (name : Str) : MenuObj :=
  { title := name
    menuPath :=
      (match parentMenuPath with
        | some p => p ++ '_' :: '_' :: []
        | none => []) ++ createMenuPathName name }

/-- The menu bar handed to `buildMenus`: the menus added via `addMenu`,
and the `_menus` attribute assigned at the end. -/
structure MenuBar where
  menus : List MenuObj := []
  menusAttr : List MenuObj := []
deriving DecidableEq

/-- `buildMenus` (menu.py lines 708-724): construct the eight top-level
menus (each constructor runs `Menu.__init__` on the menu bar with the
given title; the `build()` item population is modelled separately by
the `addItem` family), add each to the menu bar in order, and store
the same list in `menuBar._menus` (the `menusAttr` field here). -/
def buildMenus (menuBar : MenuBar) : MenuBar :=
  let menus := [
    Menu.create none "File".data,
    Menu.create none "Edit".data,
    Menu.create none "View".data,
    Menu.create none "Settings".data,
    Menu.create none "Shell".data,
    Menu.create none "Run".data,
    Menu.create none "Tools".data,
    Menu.create none "Help".data ]
  { menus := menuBar.menus ++ menus, menusAttr := menus }

/-- C6: `buildMenus` constructs exactly eight menus titled File, Edit,
View, Settings, Shell, Run, Tools, Help in that order, appends each to
the menu bar's menus, and stores the same list in `_menus`. -/
theorem buildMenus_builds_eight (menuBar : MenuBar) :
    ((buildMenus menuBar).menusAttr).map MenuObj.title =
      ["File".data, "Edit".data, "View".data, "Settings".data,
        "Shell".data, "Run".data, "Tools".data, "Help".data] ∧
    ((buildMenus menuBar).menusAttr).length = 8 ∧
    (buildMenus menuBar).menus = menuBar.menus ++ (buildMenus menuBar).menusAttr :=
  ⟨rfl, rfl, rfl⟩

/-- `QMenu.addAction(text)`: a fresh action with the given text, no
shortcuts bound, not checkable. -/
def newAction (text : Str) : QAction := { text := text }

/-- `Menu._connectActionShortcut` (menu.py lines 114-118): set the
action's `menuPath` from the containing menu's path and the normalized
action text, connect the `keyMappingChanged` signal to rebinding (the
connected lambda is `onKeyMappingChanged` below), and bind the
shortcut from the current configuration. -/
def connectActionShortcut (cfg : Shortcuts) (m : MenuObj) (a : QAction) : QAction :=
  let a2 := { a with
    menuPath := m.menuPath ++ '_' :: '_' :: createMenuPathName a.text }
  (setShortcut cfg a2).2

/-- The handler connected to `keyMappingChanged` for every action added
through the `addItem` family (the lambda of menu.py line 117): run
`KeyMapper.setShortcut` on the action with the configuration current
at emission time. -/
def onKeyMappingChanged (cfg : Shortcuts) (a : QAction) : QAction :=
  (setShortcut cfg a).2

/-- `Menu.addItem` (menu.py lines 121-138); connecting the `triggered`
callback does not affect the action's path or shortcuts. -/
def Menu.addItem (cfg : Shortcuts) (m : MenuObj) (text : Str) : QAction :=
  connectActionShortcut cfg m (newAction text)

/-- `Menu.addGroupItem` (menu.py lines 140-172); the action is made
checkable with the given initial state, and the action-group
bookkeeping does not affect its path or shortcuts. -/
def Menu.addGroupItem (cfg : Shortcuts) (m : MenuObj) (text : Str)
    (selected : Bool) : QAction :=
  connectActionShortcut cfg m
    { newAction text with checkable := true, checked := selected }

/-- `Menu.addCheckItem` (menu.py lines 174-195). -/
def Menu.addCheckItem (cfg : Shortcuts) (m : MenuObj) (text : Str)
    (selected : Bool) : QAction :=
  connectActionShortcut cfg m
    { newAction text with checkable := true, checked := selected }

/-- The shortcut list `setShortcut` leaves on an action with path `mp`
whose previous shortcut list is `old`. -/
def boundShortcuts (cfg : Shortcuts) (mp : Str) (old : List Str) : List Str :=
  match dictGet? cfg mp with
  | some s => pySplit ',' s
  | none => old

/-- What C5 asserts of one action created with text `text` in menu `m`
under configuration `cfg`: its `menuPath` is the menu's path joined
with `'__'` and the normalized text, its shortcuts come from the
configuration under that key (comma-split; a fresh action has none, so
an absent key leaves none), and every `keyMappingChanged` emission
rebinds it the same way from the then-current configuration. -/
def BoundAction (cfg : Shortcuts) (m : MenuObj) (text : Str) (a : QAction) : Prop :=
  a.menuPath = m.menuPath ++ '_' :: '_' :: createMenuPathName text ∧
  a.shortcuts = boundShortcuts cfg a.menuPath [] ∧
  ∀ cfg2, onKeyMappingChanged cfg2 a =
    { a with shortcuts := boundShortcuts cfg2 a.menuPath a.shortcuts }

theorem connectActionShortcut_bound (cfg : Shortcuts) (m : MenuObj)
    (a : QAction) (h : a.shortcuts = []) :
    BoundAction cfg m a.text (connectActionShortcut cfg m a) := by
  have hrebind : ∀ (cfg2 : Shortcuts) (b : QAction),
      onKeyMappingChanged cfg2 b =
        { b with shortcuts := boundShortcuts cfg2 b.menuPath b.shortcuts } := by
    intro cfg2 b
    cases hb : dictGet? cfg2 b.menuPath <;>
      simp [onKeyMappingChanged, setShortcut, boundShortcuts, hb]
  refine ⟨?_, ?_, fun cfg2 => hrebind cfg2 _⟩
  · cases hb : dictGet? cfg
        (m.menuPath ++ '_' :: '_' :: createMenuPathName a.text) <;>
      simp [connectActionShortcut, setShortcut, hb]
  · cases hb : dictGet? cfg
        (m.menuPath ++ '_' :: '_' :: createMenuPathName a.text) <;>
      simp [connectActionShortcut, setShortcut, boundShortcuts, hb, h]

/-- C5: every action added through `Menu.addItem`, `Menu.addGroupItem`
or `Menu.addCheckItem` gets `menuPath` set to the containing menu's
path joined with `'__'` and the normalized action text, gets its
shortcuts from `iep.config.shortcuts` under that key (the stored
string split at commas), and is re-bound the same way on every
`keyMappingChanged` emission. -/
theorem addItem_family_binds (cfg : Shortcuts) (m : MenuObj) (text : Str)
    (sel : Bool) :
    BoundAction cfg m text (Menu.addItem cfg m text) ∧
    BoundAction cfg m text (Menu.addGroupItem cfg m text sel) ∧
    BoundAction cfg m text (Menu.addCheckItem cfg m text sel) :=
  ⟨connectActionShortcut_bound cfg m (newAction text) rfl,
   connectActionShortcut_bound cfg m
     { newAction text with checkable := true, checked := sel } rfl,
   connectActionShortcut_bound cfg m
     { newAction text with checkable := true, checked := sel } rfl⟩

/-! ## The keymap tree model -/

/-- A node of the widget tree as `KeyMapModel` traverses it: a `QMenu`
with its title and the list returned by `QMenu.actions()` (in which a
submenu appears through its menu action, converted back to the menu by
`KeyMapModel.index`), a plain action, or a separator. -/
inductive MenuNode where
  | menu (title : Str) (children : List MenuNode) : MenuNode
  | action (a : QAction) : MenuNode
  | separator : MenuNode

/-- `QMenu.actions()` on a node; `rowCount` only ever receives menu
nodes (its `internalPointer` is produced by `KeyMapModel.index`, which
converts a submenu's action to the menu). -/
def menuActions : MenuNode → List MenuNode
  | .menu _ children => children
  | _ => []

/-- `KeyMapModel` after `setRootMenu`: the root menu of the tree. -/
structure KeyMapModel where
  root : MenuNode

/-- `KeyMapModel.rowCount` (menu.py lines 1197-1202): the number of
actions of the parent index's menu, or of the root menu when the
parent index is invalid (`none`). -/
def rowCount (model : KeyMapModel) (parent : Option MenuNode) : Nat :=
  match parent with
  | some item => (menuActions item).length
  | none => (menuActions model.root).length

/-- `KeyMapModel.columnCount` (menu.py lines 1204-1205). -/
def columnCount (_model : KeyMapModel) (_parent : Option MenuNode) : Nat := 3

/-- C8: `columnCount` is 3 for every parent index, and `rowCount` is
the number of actions of the root menu for an invalid parent index and
of the menu held by the parent index otherwise. -/
theorem keyMapModel_counts (model : KeyMapModel) (parent : Option MenuNode) :
    columnCount model parent = 3 ∧
    rowCount model none = (menuActions model.root).length ∧
    (∀ item, rowCount model (some item) = (menuActions item).length) :=
  ⟨rfl, rfl, fun _ => rfl⟩

/-- C9 counterexample: for the input `"\rx"` the carriage return lies
in the leading whitespace, so `lstrip` removes it and the output
contains no newline although the input contains a carriage return. -/
theorem unwrapText_claim_cex :
    '\r' ∈ ('\r' :: 'x' :: []) ∧ '\n' ∉ unwrapText ('\r' :: 'x' :: []) := by
  decide

/-! ## The shortcut edit dialog -/

/-- Python `key.replace('__', ' -> ')`: scan left to right, expanding
each non-overlapping double underscore. -/
def replaceDunderArrow : Str → Str
  | [] => []
  | [c] => [c]
  | x :: y :: rest =>
    if x = '_' ∧ y = '_' then
      ' ' :: '-' :: '>' :: ' ' :: replaceDunderArrow rest
    else x :: replaceDunderArrow (y :: rest)

/-- `key.replace('__',' -> ').replace('_', ' ')`: the display form of a
path name used in the dialog texts (menu.py lines 1415 and 1453). -/
def keyDisplay (key : Str) : Str :=
  pyReplaceChar '_' ' ' (replaceDunderArrow key)

/-- The per-key collision test of `KeyMapEditDialog.onEdit` (menu.py
lines 1441-1448): the word naming the slot whose stored shortcut
equals the entered one case-insensitively, or the empty string when
neither slot matches. -/
def matchKind (cfg : Shortcuts) (shortcut key : Str) : Str :=
  let shortcuts := getShortcut cfg key
  if pyLower (slot0 shortcuts) = pyLower shortcut then "primary".data
  else if pyLower (slot1 shortcuts) = pyLower shortcut then "secondary".data
  else []

/-- `KeyMapEditDialog.onEdit` (menu.py lines 1432-1457): the label text
after an edit.  An empty entered shortcut shows the intro alone; the
loop over the configuration keys stops at the first key one of whose
slots matches and appends the warning for it; the loop's `else`
branch restores the intro when no key matches. -/
def onEditLabel (cfg : Shortcuts) (intro shortcut : Str) : Str :=
  if shortcut = [] then intro
  else
    match cfg.find? (fun p => matchKind cfg shortcut p.1 ≠ []) with
    | some p =>
      intro ++ '\n' :: '\n' ::
        ("WARNING: combo already in use ".data ++ "as ".data ++
          matchKind cfg shortcut p.1 ++ " shortcut for:\n".data ++
          keyDisplay p.1)
    | none => intro

theorem matchKind_ne_nil_iff (cfg : Shortcuts) (shortcut key : Str) :
    matchKind cfg shortcut key ≠ [] ↔
      (pyLower (slot0 (getShortcut cfg key)) = pyLower shortcut ∨
        pyLower (slot1 (getShortcut cfg key)) = pyLower shortcut) := by
  unfold matchKind
  by_cases h0 : pyLower (slot0 (getShortcut cfg key)) = pyLower shortcut
  · simp [h0]
  · by_cases h1 : pyLower (slot1 (getShortcut cfg key)) = pyLower shortcut <;>
      simp [h0, h1]

/-- C3: after an edit the label shows a warning appended to the intro
text (after a blank line) if and only if the entered shortcut is
non-empty and equals, case-insensitively, the primary or secondary
shortcut stored for some key of the configuration; otherwise the label
is the intro alone. -/
theorem onEdit_collision (cfg : Shortcuts) (intro shortcut : Str) :
    ((shortcut ≠ [] ∧ ∃ k ∈ cfg.map Prod.fst,
        pyLower (slot0 (getShortcut cfg k)) = pyLower shortcut ∨
        pyLower (slot1 (getShortcut cfg k)) = pyLower shortcut) ↔
      ∃ w, w ≠ [] ∧
        onEditLabel cfg intro shortcut = intro ++ '\n' :: '\n' :: w) ∧
    (¬ (shortcut ≠ [] ∧ ∃ k ∈ cfg.map Prod.fst,
        pyLower (slot0 (getShortcut cfg k)) = pyLower shortcut ∨
        pyLower (slot1 (getShortcut cfg k)) = pyLower shortcut) →
      onEditLabel cfg intro shortcut = intro) := by
  have hkey : (∃ p ∈ cfg, matchKind cfg shortcut p.1 ≠ []) ↔
      (∃ k ∈ cfg.map Prod.fst,
        pyLower (slot0 (getShortcut cfg k)) = pyLower shortcut ∨
        pyLower (slot1 (getShortcut cfg k)) = pyLower shortcut) := by
    constructor
    · rintro ⟨p, hp, hk⟩
      exact ⟨p.1, List.mem_map_of_mem Prod.fst hp,
        (matchKind_ne_nil_iff cfg shortcut p.1).mp hk⟩
    · rintro ⟨k, hk, hm⟩
      rcases List.mem_map.mp hk with ⟨p, hp, rfl⟩
      exact ⟨p, hp, (matchKind_ne_nil_iff cfg shortcut p.1).mpr hm⟩
  by_cases hs : shortcut = []
  · constructor
    · constructor
      · rintro ⟨h1, _⟩
        exact absurd hs h1
      · rintro ⟨w, hw, hl⟩
        rw [onEditLabel, if_pos hs] at hl
        have : (intro ++ '\n' :: '\n' :: w).length = intro.length := by
          rw [← hl]
        simp at this
    · intro _
      rw [onEditLabel, if_pos hs]
  · cases hf : cfg.find? (fun p => matchKind cfg shortcut p.1 ≠ []) with
    | none =>
      have hno : ¬ ∃ p ∈ cfg, matchKind cfg shortcut p.1 ≠ [] := by
        intro ⟨p, hp, hk⟩
        have hsome : (cfg.find? (fun p => matchKind cfg shortcut p.1 ≠ [])).isSome :=
          List.find?_isSome.mpr ⟨p, hp, decide_eq_true hk⟩
        rw [hf] at hsome
        simp at hsome
      constructor
      · constructor
        · rintro ⟨_, hex⟩
          exact absurd (hkey.mpr hex) hno
        · rintro ⟨w, hw, hl⟩
          rw [onEditLabel, if_neg hs, hf] at hl
          have : (intro ++ '\n' :: '\n' :: w).length = intro.length := by
            rw [← hl]
          simp at this
      · intro _
        rw [onEditLabel, if_neg hs, hf]
    | some p =>
      have hp : p ∈ cfg ∧ matchKind cfg shortcut p.1 ≠ [] := by
        have h1 := List.find?_some hf
        have h2 := List.mem_of_find?_eq_some hf
        exact ⟨h2, of_decide_eq_true h1⟩
      constructor
      · constructor
        · intro _
          refine ⟨"WARNING: combo already in use ".data ++ "as ".data ++
            matchKind cfg shortcut p.1 ++ " shortcut for:\n".data ++
            keyDisplay p.1, by simp, ?_⟩
          rw [onEditLabel, if_neg hs, hf]
        · intro _
          exact ⟨hs, hkey.mp ⟨p, hp.1, hp.2⟩⟩
      · intro hn
        exact absurd ⟨hs, hkey.mp ⟨p, hp.1, hp.2⟩⟩ hn

/-- C3 witness: with the single stored shortcut `Ctrl+A`, entering the
non-matching `x` leaves the label at the intro text. -/
theorem onEdit_collision_witness :
    onEditLabel [("k".data, "Ctrl+A".data)] "I".data "x".data = "I".data :=
  (onEdit_collision [("k".data, "Ctrl+A".data)] "I".data "x".data).2 (by decide)

/-! ## Applying a shortcut edit: `KeyMapEditDialog.onAccept` -/

theorem pyLower_eq_nil {s : Str} : pyLower s = [] ↔ s = [] := by
  simp [pyLower]

theorem exists_cons_cons {α : Type} {l : List α} (h : 2 ≤ l.length) :
    ∃ a b rest, l = a :: b :: rest := by
  cases l with
  | nil => simp at h
  | cons a t =>
    cases t with
    | nil => simp at h
    | cons b rest => exact ⟨a, b, rest, rfl⟩

theorem mem_of_mem_pySplit (sep : Char) (s : Str) :
    ∀ p ∈ pySplit sep s, ∀ c ∈ p, c ∈ s := by
  induction s with
  | nil => simp [pySplit]
  | cons x rest ih =>
    by_cases h : x = sep
    · simp only [pySplit, if_pos h]
      intro p hp c hc
      rcases List.mem_cons.mp hp with h1 | h1
      · subst h1; simp at hc
      · exact List.mem_cons_of_mem x (ih p h1 c hc)
    · cases hs : pySplit sep rest with
      | nil => exact absurd hs (pySplit_ne_nil sep rest)
      | cons q ps =>
        simp only [pySplit, if_neg h, hs]
        intro p hp c hc
        rcases List.mem_cons.mp hp with h1 | h1
        · subst h1
          rcases List.mem_cons.mp hc with h2 | h2
          · exact h2 ▸ List.mem_cons_self x rest
          · exact List.mem_cons_of_mem x
              (ih q (hs ▸ List.mem_cons_self q ps) c h2)
        · exact List.mem_cons_of_mem x
            (ih p (hs ▸ List.mem_cons_of_mem q h1) c hc)

theorem mem_pyJoin {sep : Char} {c : Char} :
    ∀ {parts : List Str}, c ∈ pyJoin sep parts →
      c = sep ∨ ∃ p ∈ parts, c ∈ p := by
  intro parts
  induction parts with
  | nil => simp [pyJoin]
  | cons p ps ih =>
    cases ps with
    | nil =>
      simp only [pyJoin]
      intro h
      exact Or.inr ⟨p, List.mem_cons_self p [], h⟩
    | cons q qs =>
      simp only [pyJoin]
      intro h
      rcases List.mem_append.mp h with h1 | h1
      · exact Or.inr ⟨p, List.mem_cons_self p (q :: qs), h1⟩
      · rcases List.mem_cons.mp h1 with h2 | h2
        · exact Or.inl h2
        · rcases ih h2 with h3 | ⟨r, hr, hcr⟩
          · exact Or.inl h3
          · exact Or.inr ⟨r, List.mem_cons_of_mem p hr, hcr⟩

theorem pyRemoveChar_id {a : Char} {l : Str} (h : ∀ c ∈ l, c ≠ a) :
    pyRemoveChar a l = l := by
  induction l with
  | nil => rfl
  | cons x rest ih =>
    rw [pyRemoveChar, if_neg (h x (List.mem_cons_self x rest)),
      ih (fun c hc => h c (List.mem_cons_of_mem x hc))]

theorem dictGet?_none_of_not_mem {cfg : Shortcuts} {k : Str}
    (h : k ∉ cfg.map Prod.fst) : dictGet? cfg k = none := by
  induction cfg with
  | nil => rfl
  | cons p rest ih =>
    simp only [List.map_cons, List.mem_cons] at h
    push_neg at h
    rw [dictGet?, if_neg (fun hc => h.1 hc.symm)]
    exact ih h.2

theorem parseShortcut_join (tmp : List Str) (h2 : 2 ≤ tmp.length)
    (hcomma : ∀ q ∈ tmp, (',' : Char) ∉ q) :
    parseShortcut (some (pyJoin ',' tmp)) = tmp := by
  have hne : tmp ≠ [] := by
    intro h; rw [h] at h2; simp at h2
  have hsplit : pySplit ',' (pyJoin ',' tmp) = tmp :=
    pySplit_pyJoin ',' tmp hne hcomma
  have hcount : (pyJoin ',' tmp).count ',' ≠ 0 := by
    intro h
    have := pySplit_length ',' (pyJoin ',' tmp)
    rw [hsplit, h] at this
    omega
  simp only [parseShortcut, if_pos hcount]
  exact hsplit

/-- The binding the removal loop of `onAccept` (menu.py lines
1464-1482) leaves for one key, as a function of the key's current
value: clear whichever of the first two slots equals the entered
shortcut `s` case-insensitively; when one did, re-join with commas,
strip spaces, and delete the binding (`none`) when the result is a
single character, otherwise store it; when neither matched, keep the
value. -/
def stripValue (s : Str) (ov : Option Str) : Option Str :=
  let shortcuts := parseShortcut ov
  let tmp := if pyLower (slot0 shortcuts) = pyLower s
    then shortcuts.set 0 [] else shortcuts
  let tmp2 := if pyLower (slot1 shortcuts) = pyLower s
    then tmp.set 1 [] else tmp
  if pyLower (slot0 shortcuts) = pyLower s ∨
      pyLower (slot1 shortcuts) = pyLower s then
    let t := pyRemoveChar ' ' (pyJoin ',' tmp2)
    if t.length = 1 then none else some t
  else ov

/-- One iteration of the removal loop of `onAccept` for the key `key`
on the current configuration: the dict update corresponding to
`stripValue` (`del` when the re-joined string is a single character,
assignment otherwise, no touch when neither slot matched). -/
def stripKey (s key : Str) (cur : Shortcuts) : Shortcuts :=
  let shortcuts := getShortcut cur key
  let tmp := if pyLower (slot0 shortcuts) = pyLower s
    then shortcuts.set 0 [] else shortcuts
  let tmp2 := if pyLower (slot1 shortcuts) = pyLower s
    then tmp.set 1 [] else tmp
  if pyLower (slot0 shortcuts) = pyLower s ∨
      pyLower (slot1 shortcuts) = pyLower s then
    let t := pyRemoveChar ' ' (pyJoin ',' tmp2)
    if t.length = 1 then dictDel cur key else dictSet cur key t
  else cur

/-- `KeyMapEditDialog.onAccept` (menu.py lines 1460-1496) with entered
shortcut `s`, edited key `fullname` (the dialog's `_fullname`) and
slot choice `isprimary`: remove `s` case-insensitively from the first
two slots of every entry (iterating over a copy of the key list), then
— when `fullname` is non-empty — store `s` at the chosen slot of
`fullname`'s entry, re-reading the current entry (or a fresh pair when
absent) and re-joining with a comma. -/
def onAccept (cfg : Shortcuts) (fullname : Str) (isprimary : Bool)
    (s : Str) : Shortcuts :=
  let cfg2 := (cfg.map Prod.fst).foldl (fun cur key => stripKey s key cur) cfg
  if fullname ≠ [] then
    let current :=
      if (dictGet? cfg2 fullname).isSome then getShortcut cfg2 fullname
      else [[], []]
    dictSet cfg2 fullname
      (pyJoin ',' (current.set (if isprimary then 0 else 1) s))
  else cfg2

theorem dictGet?_stripKey_self (s key : Str) (cur : Shortcuts) :
    dictGet? (stripKey s key cur) key = stripValue s (dictGet? cur key) := by
  simp only [stripKey, stripValue, getShortcut]
  by_cases hm : pyLower (slot0 (parseShortcut (dictGet? cur key))) = pyLower s ∨
      pyLower (slot1 (parseShortcut (dictGet? cur key))) = pyLower s
  · rw [if_pos hm, if_pos hm]
    by_cases hl : (pyRemoveChar ' ' (pyJoin ','
        (if pyLower (slot1 (parseShortcut (dictGet? cur key))) = pyLower s
          then (if pyLower (slot0 (parseShortcut (dictGet? cur key))) = pyLower s
            then (parseShortcut (dictGet? cur key)).set 0 []
            else parseShortcut (dictGet? cur key)).set 1 []
          else if pyLower (slot0 (parseShortcut (dictGet? cur key))) = pyLower s
            then (parseShortcut (dictGet? cur key)).set 0 []
            else parseShortcut (dictGet? cur key)))).length = 1
    · rw [if_pos hl, if_pos hl]
      exact dictGet?_del_self cur key
    · rw [if_neg hl, if_neg hl]
      exact dictGet?_set_self cur key _
  · rw [if_neg hm, if_neg hm]

theorem dictGet?_stripKey_ne (s key : Str) (cur : Shortcuts) {k : Str}
    (hk : k ≠ key) :
    dictGet? (stripKey s key cur) k = dictGet? cur k := by
  simp only [stripKey]
  by_cases hm : pyLower (slot0 (getShortcut cur key)) = pyLower s ∨
      pyLower (slot1 (getShortcut cur key)) = pyLower s
  · rw [if_pos hm]
    by_cases hl : (pyRemoveChar ' ' (pyJoin ','
        (if pyLower (slot1 (getShortcut cur key)) = pyLower s
          then (if pyLower (slot0 (getShortcut cur key)) = pyLower s
            then (getShortcut cur key).set 0 []
            else getShortcut cur key).set 1 []
          else if pyLower (slot0 (getShortcut cur key)) = pyLower s
            then (getShortcut cur key).set 0 []
            else getShortcut cur key))).length = 1
    · rw [if_pos hl]
      exact dictGet?_del_ne cur hk
    · rw [if_neg hl]
      exact dictGet?_set_ne cur _ hk
  · rw [if_neg hm]

theorem foldl_strip_lookup (s : Str) (ks : List Str) (hnd : ks.Nodup) :
    ∀ (cur : Shortcuts) (k : Str),
      dictGet? (ks.foldl (fun cur key => stripKey s key cur) cur) k =
        if k ∈ ks then stripValue s (dictGet? cur k) else dictGet? cur k := by
  induction ks with
  | nil => simp
  | cons key rest ih =>
    intro cur k
    have hnd2 := List.nodup_cons.mp hnd
    simp only [List.foldl_cons]
    rw [ih hnd2.2 (stripKey s key cur) k]
    by_cases hk : k ∈ rest
    · have hkey : k ≠ key := fun hc => hnd2.1 (hc ▸ hk)
      rw [if_pos hk, if_pos (List.mem_cons_of_mem key hk),
        dictGet?_stripKey_ne s key cur hkey]
    · by_cases hkey : k = key
      · subst hkey
        rw [if_neg hk, if_pos (List.mem_cons_self k rest),
          dictGet?_stripKey_self]
      · rw [if_neg hk, if_neg (by simp [hkey, hk]),
          dictGet?_stripKey_ne s key cur hkey]

theorem mem_parseShortcut_no_space (ov : Option Str)
    (hov : ∀ v, ov = some v → (' ' : Char) ∉ v) :
    ∀ q ∈ parseShortcut ov, (' ' : Char) ∉ q := by
  cases ov with
  | none => simp [parseShortcut]
  | some v =>
    have hv := hov v rfl
    simp only [parseShortcut]
    by_cases hc : v.count ',' ≠ 0
    · rw [if_pos hc]
      intro q hq hsp
      exact hv (mem_of_mem_pySplit ',' v q hq ' ' hsp)
    · rw [if_neg hc]
      intro q hq hsp
      rcases List.mem_cons.mp hq with h1 | h1
      · exact hv (h1 ▸ hsp)
      · simp at h1
        subst h1
        simp at hsp

theorem stripped_slots_ne (s : Str) (hsl : pyLower s ≠ []) (tmp : List Str)
    (h2 : 2 ≤ tmp.length)
    (hcomma : ∀ q ∈ tmp, (',' : Char) ∉ q)
    (hspace : ∀ q ∈ tmp, (' ' : Char) ∉ q)
    (h0 : pyLower (slot0 tmp) ≠ pyLower s)
    (h1 : pyLower (slot1 tmp) ≠ pyLower s) :
    pyLower (slot0 (parseShortcut
      (if (pyRemoveChar ' ' (pyJoin ',' tmp)).length = 1 then none
        else some (pyRemoveChar ' ' (pyJoin ',' tmp))))) ≠ pyLower s ∧
    pyLower (slot1 (parseShortcut
      (if (pyRemoveChar ' ' (pyJoin ',' tmp)).length = 1 then none
        else some (pyRemoveChar ' ' (pyJoin ',' tmp))))) ≠ pyLower s := by
  have hid : pyRemoveChar ' ' (pyJoin ',' tmp) = pyJoin ',' tmp := by
    apply pyRemoveChar_id
    intro c hc
    rcases mem_pyJoin hc with h | ⟨p, hp, hcp⟩
    · subst h; decide
    · exact fun he => hspace p hp (he ▸ hcp)
  rw [hid]
  by_cases hl : (pyJoin ',' tmp).length = 1
  · rw [if_pos hl]
    constructor <;>
      simpa [parseShortcut, slot0, slot1, pyLower] using Ne.symm hsl
  · rw [if_neg hl, parseShortcut_join tmp h2 hcomma]
    exact ⟨h0, h1⟩

theorem stripValue_clears (s : Str) (ov : Option Str) (hs : s ≠ [])
    (hov : ∀ v, ov = some v → (' ' : Char) ∉ v) :
    pyLower (slot0 (parseShortcut (stripValue s ov))) ≠ pyLower s ∧
    pyLower (slot1 (parseShortcut (stripValue s ov))) ≠ pyLower s := by
  have hsl : pyLower s ≠ [] := fun h => hs (pyLower_eq_nil.mp h)
  obtain ⟨a, b, rest, habr⟩ := exists_cons_cons (parseShortcut_length_ge_two ov)
  have hmem : ∀ q, q ∈ rest → q ∈ parseShortcut ov := by
    intro q hq
    rw [habr]
    exact List.mem_cons_of_mem a (List.mem_cons_of_mem b hq)
  have hmema : a ∈ parseShortcut ov := by
    rw [habr]; exact List.mem_cons_self a (b :: rest)
  have hmemb : b ∈ parseShortcut ov := by
    rw [habr]; exact List.mem_cons_of_mem a (List.mem_cons_self b rest)
  by_cases h0 : pyLower a = pyLower s <;> by_cases h1 : pyLower b = pyLower s
  · -- both slots match: tmp becomes [] :: [] :: rest
    have hred : stripValue s ov =
        (if (pyRemoveChar ' ' (pyJoin ',' (([] : Str) :: ([] : Str) :: rest))).length = 1
          then none
          else some (pyRemoveChar ' ' (pyJoin ',' (([] : Str) :: ([] : Str) :: rest)))) := by
      simp [stripValue, habr, slot0, slot1, h0, h1, List.set]
    rw [hred]
    apply stripped_slots_ne s hsl ([] :: [] :: rest) (by simp)
    · intro q hq
      rcases List.mem_cons.mp hq with rfl | hq2
      · simp
      · rcases List.mem_cons.mp hq2 with rfl | hq3
        · simp
        · exact mem_parseShortcut_no_comma ov q (hmem q hq3)
    · intro q hq
      rcases List.mem_cons.mp hq with rfl | hq2
      · simp
      · rcases List.mem_cons.mp hq2 with rfl | hq3
        · simp
        · exact mem_parseShortcut_no_space ov hov q (hmem q hq3)
    · simpa [slot0, pyLower] using Ne.symm hsl
    · simpa [slot1, pyLower] using Ne.symm hsl
  · -- only the primary matches: tmp becomes [] :: b :: rest
    have hred : stripValue s ov =
        (if (pyRemoveChar ' ' (pyJoin ',' (([] : Str) :: b :: rest))).length = 1
          then none
          else some (pyRemoveChar ' ' (pyJoin ',' (([] : Str) :: b :: rest)))) := by
      simp [stripValue, habr, slot0, slot1, h0, h1, List.set]
    rw [hred]
    apply stripped_slots_ne s hsl ([] :: b :: rest) (by simp)
    · intro q hq
      rcases List.mem_cons.mp hq with rfl | hq2
      · simp
      · rcases List.mem_cons.mp hq2 with rfl | hq3
        · exact mem_parseShortcut_no_comma ov q hmemb
        · exact mem_parseShortcut_no_comma ov q (hmem q hq3)
    · intro q hq
      rcases List.mem_cons.mp hq with rfl | hq2
      · simp
      · rcases List.mem_cons.mp hq2 with rfl | hq3
        · exact mem_parseShortcut_no_space ov hov q hmemb
        · exact mem_parseShortcut_no_space ov hov q (hmem q hq3)
    · simpa [slot0, pyLower] using Ne.symm hsl
    · simpa [slot1] using h1
  · -- only the secondary matches: tmp becomes a :: [] :: rest
    have hred : stripValue s ov =
        (if (pyRemoveChar ' ' (pyJoin ',' (a :: ([] : Str) :: rest))).length = 1
          then none
          else some (pyRemoveChar ' ' (pyJoin ',' (a :: ([] : Str) :: rest)))) := by
      simp [stripValue, habr, slot0, slot1, h0, h1, List.set]
    rw [hred]
    apply stripped_slots_ne s hsl (a :: [] :: rest) (by simp)
    · intro q hq
      rcases List.mem_cons.mp hq with rfl | hq2
      · exact mem_parseShortcut_no_comma ov q hmema
      · rcases List.mem_cons.mp hq2 with rfl | hq3
        · simp
        · exact mem_parseShortcut_no_comma ov q (hmem q hq3)
    · intro q hq
      rcases List.mem_cons.mp hq with rfl | hq2
      · exact mem_parseShortcut_no_space ov hov q hmema
      · rcases List.mem_cons.mp hq2 with rfl | hq3
        · simp
        · exact mem_parseShortcut_no_space ov hov q (hmem q hq3)
    · simpa [slot0] using h0
    · simpa [slot1, pyLower] using Ne.symm hsl
  · -- no slot matches: the entry is untouched
    have hred : stripValue s ov = ov := by
      simp only [stripValue]
      rw [if_neg]
      rw [habr]
      simp only [slot0, slot1, List.headD, List.drop]
      tauto
    rw [hred, habr]
    exact ⟨by simpa [slot0] using h0, by simpa [slot1] using h1⟩

/-- C1 (amended): provided the entered shortcut is non-empty and
contains no comma and every stored shortcut string is free of spaces,
after `onAccept` with edited key `n` (non-empty) no key other than `n`
has the entered shortcut, compared case-insensitively, as its primary
or secondary shortcut, and the entry stored for `n` has the entered
shortcut at the primary position when the dialog edits the primary
shortcut and at the secondary position otherwise.  (Without these
provisos the claim fails: see the counterexample.) -/
theorem onAccept_unique (cfg : Shortcuts) (n s : Str) (ip : Bool)
    (hkeys : (cfg.map Prod.fst).Nodup) (hn : n ≠ []) (hs : s ≠ [])
    (hsc : (',' : Char) ∉ s) (hsp : ∀ p ∈ cfg, (' ' : Char) ∉ p.2) :
    (∀ k, k ≠ n →
      pyLower (slot0 (getShortcut (onAccept cfg n ip s) k)) ≠ pyLower s ∧
      pyLower (slot1 (getShortcut (onAccept cfg n ip s) k)) ≠ pyLower s) ∧
    (if ip then slot0 (getShortcut (onAccept cfg n ip s) n)
      else slot1 (getShortcut (onAccept cfg n ip s) n)) = s := by
  have hsl : pyLower s ≠ [] := fun h => hs (pyLower_eq_nil.mp h)
  simp only [onAccept]
  rw [if_pos hn]
  set cfg2 := (cfg.map Prod.fst).foldl (fun cur key => stripKey s key cur) cfg
    with hcfg2
  have hfold : ∀ k, dictGet? cfg2 k =
      if k ∈ cfg.map Prod.fst then stripValue s (dictGet? cfg k)
      else dictGet? cfg k := by
    intro k
    rw [hcfg2]
    exact foldl_strip_lookup s (cfg.map Prod.fst) hkeys cfg k
  set current0 := if (dictGet? cfg2 n).isSome then getShortcut cfg2 n
    else ([[], []] : List Str) with hcur0
  set current := current0.set (if ip then 0 else 1) s with hcur
  have hlen0 : 2 ≤ current0.length := by
    rw [hcur0]
    by_cases hsome : (dictGet? cfg2 n).isSome
    · rw [if_pos hsome]
      exact getShortcut_length_ge_two cfg2 n
    · rw [if_neg hsome]
      simp
  have hcomma0 : ∀ q ∈ current0, (',' : Char) ∉ q := by
    rw [hcur0]
    by_cases hsome : (dictGet? cfg2 n).isSome
    · rw [if_pos hsome]
      exact mem_getShortcut_no_comma cfg2 n
    · rw [if_neg hsome]
      intro q hq
      rcases List.mem_cons.mp hq with rfl | hq2
      · simp
      · simp at hq2
        subst hq2
        simp
  have hlen : 2 ≤ current.length := by
    rw [hcur, List.length_set]
    exact hlen0
  have hcomma : ∀ q ∈ current, (',' : Char) ∉ q := by
    rw [hcur]
    intro q hq
    rcases List.mem_or_eq_of_mem_set hq with h | rfl
    · exact hcomma0 q h
    · exact hsc
  have hget_n : getShortcut (dictSet cfg2 n (pyJoin ',' current)) n = current := by
    unfold getShortcut
    rw [dictGet?_set_self]
    exact parseShortcut_join current hlen hcomma
  constructor
  · intro k hkn
    have hget_k : getShortcut (dictSet cfg2 n (pyJoin ',' current)) k =
        parseShortcut (dictGet? cfg2 k) := by
      unfold getShortcut
      rw [dictGet?_set_ne _ _ hkn]
    rw [hget_k, hfold k]
    by_cases hk : k ∈ cfg.map Prod.fst
    · rw [if_pos hk]
      exact stripValue_clears s (dictGet? cfg k) hs
        (fun v hv => hsp (k, v) (dictGet?_mem hv))
    · rw [if_neg hk, dictGet?_none_of_not_mem hk]
      constructor <;>
        simpa [parseShortcut, slot0, slot1, pyLower] using Ne.symm hsl
  · rw [hget_n]
    obtain ⟨a0, b0, rest0, habr0⟩ := exists_cons_cons hlen0
    cases ip
    · simp [hcur, habr0, slot1, List.set]
    · simp [hcur, habr0, slot0, List.set]

/-- C1 witness: with the sole stored shortcut `Ctrl+A` for key `k` and
the dialog applying `ctrl+a` as the primary shortcut of the (new) key
`m`, afterwards `k` no longer has it and `m` has it at the primary
position. -/
theorem onAccept_unique_witness :
    pyLower (slot0 (getShortcut
        (onAccept [("k".data, "Ctrl+A".data)] "m".data true "ctrl+a".data)
        "k".data)) ≠ pyLower "ctrl+a".data ∧
    slot0 (getShortcut
        (onAccept [("k".data, "Ctrl+A".data)] "m".data true "ctrl+a".data)
        "m".data) = "ctrl+a".data := by
  have h := onAccept_unique [("k".data, "Ctrl+A".data)] "m".data
    "ctrl+a".data true (by decide) (by decide) (by decide) (by decide)
    (by decide)
  exact ⟨(h.1 "k".data (by decide)).1, h.2⟩

/-- C1 counterexample: three inputs on which the claim as stated
fails.  With the empty entered shortcut, the untouched key `k` keeps
an entry whose secondary slot equals the entered shortcut; with a
shortcut containing a comma, the re-split entry of the edited key no
longer carries the shortcut at the primary position; and with another
key's stored value containing a space, the space-stripping of the
removal loop rewrites that entry so that its primary slot becomes
exactly the non-empty, comma-free entered shortcut. -/
theorem onAccept_claim_cex :
    (pyLower (slot1 (getShortcut
        (onAccept [("k".data, "a".data)] "m".data true []) "k".data)) =
      pyLower [] ∧ "k".data ≠ "m".data) ∧
    slot0 (getShortcut
        (onAccept [] "m".data true "Ctrl+,".data) "m".data) ≠
      "Ctrl+,".data ∧
    (pyLower (slot0 (getShortcut
        (onAccept [("k".data, "a b,AB".data)] "m".data true "ab".data)
        "k".data)) = pyLower "ab".data ∧
      "ab".data ≠ [] ∧ (',' : Char) ∉ "ab".data ∧ "k".data ≠ "m".data) := by
  decide

/-! ## `expandVersion` and the update check ordering -/

/-- A decimal digit character (code points 48-57). -/
def isDigitChar (c : Char) : Bool := 48 ≤ c.toNat && c.toNat ≤ 57

/-- The character for a decimal digit value. -/
def digitChar (d : Nat) : Char := Char.ofNat (48 + d)

/-- The `k` least-significant decimal digits of `n`, most significant
first, with leading zeros up to width `k` — the fixed-width zero
padding `'%05i'` produces for numbers of at most `k` digits. -/
def digitsFix : Nat → Nat → Str
  | 0, _ => []
  | k + 1, n => digitsFix k (n / 10) ++ [digitChar (n % 10)]

/-- The number of decimal digits of `n` (1 for 0).  The fuel starts at
`n`, which bounds the number of divisions by ten. -/
def lenDigitsAux : Nat → Nat → Nat
  | 0, _ => 1
  | f + 1, n => if n < 10 then 1 else 1 + lenDigitsAux f (n / 10)

def lenDigits (n : Nat) : Nat := lenDigitsAux n n

/-- Python `'%05i' % n` for a natural number: the decimal digits of
`n`, zero-padded on the left to width 5. -/
def fmt05Nat (n : Nat) : Str := digitsFix (max 5 (lenDigits n)) n

/-- Python `'%05i' % n` for an integer: non-negative values as
`fmt05Nat`; negative values render the magnitude padded to four digits
behind the sign (the field width of 5 includes the sign). -/
def fmt05 (n : Int) : Str :=
  if n < 0 then '-' :: digitsFix (max 4 (lenDigits n.natAbs)) n.natAbs
  else fmt05Nat n.natAbs

/-- The numeric value of a string of decimal digits. -/
def digitsVal (ds : Str) : Nat :=
  ds.foldl (fun acc c => 10 * acc + (c.toNat - 48)) 0

/-- The digit-string test and value of Python `int()` after sign
handling: at least one character, all decimal digits. -/
def digitsToNat? (ds : Str) : Option Nat :=
  if ds ≠ [] ∧ ds.all isDigitChar then some (digitsVal ds) else none

/-- Python `int(s)` as called by `expandVersion`'s `try`: strip
whitespace on both sides, accept an optional single sign followed by
at least one decimal digit, and fail (raise `ValueError`, here `none`)
otherwise.  (This code targets Python 3.1; underscores in integer
literals did not exist yet.) -/
def pyInt? (s : Str) : Option Int :=
  match ((s.dropWhile isPySpace).reverse.dropWhile isPySpace).reverse with
  | [] => none
  | c :: ds =>
    if c = '+' then (digitsToNat? ds).map (fun v => (v : Int))
    else if c = '-' then (digitsToNat? ds).map (fun v => -(v : Int))
    else (digitsToNat? (c :: ds)).map (fun v => (v : Int))

/-- `expandVersion` (menu.py lines 966-974): split at the dots, render
each component that parses as an integer with `'%05i'`, keep the other
components unchanged, and re-join with dots. -/
def expandVersion (version : Str) : Str :=
  pyJoin '.' ((pySplit '.' version).map (fun ver =>
    match pyInt? ver with
    | some n => fmt05 n
    | none => ver))

/-- Lexicographic comparison of strings by code point, with a proper
prefix smaller — how Python compares `str` values (used by the update
check to pick the newest version). -/
def strCmp : Str → Str → Ordering
  | [], [] => .eq
  | [], _ :: _ => .lt
  | _ :: _, [] => .gt
  | a :: as, b :: bs =>
    if a < b then .lt else if b < a then .gt else strCmp as bs

/-- Three-way comparison of naturals. -/
def natCmp (m n : Nat) : Ordering :=
  if m < n then .lt else if n < m then .gt else .eq

/-- Lexicographic comparison of lists by a comparison on elements. -/
def listCmpBy {α : Type} (cmp : α → α → Ordering) : List α → List α → Ordering
  | [], [] => .eq
  | [], _ :: _ => .lt
  | _ :: _, [] => .gt
  | a :: as, b :: bs =>
    match cmp a b with
    | .eq => listCmpBy cmp as bs
    | o => o

theorem digitsFix_length (k : Nat) : ∀ n, (digitsFix k n).length = k := by
  induction k with
  | zero => intro n; rfl
  | succ k ih => intro n; simp [digitsFix, ih]

theorem natCmp_eq_lt {m n : Nat} : natCmp m n = .lt ↔ m < n := by
  unfold natCmp
  split_ifs with h1 h2 <;> simp_all

theorem natCmp_eq_eq {m n : Nat} : natCmp m n = .eq ↔ m = n := by
  unfold natCmp
  split_ifs with h1 h2 <;> simp_all <;> omega

theorem natCmp_div_mod (m n : Nat) (h : m / 10 = n / 10) :
    natCmp m n = natCmp (m % 10) (n % 10) := by
  unfold natCmp
  split_ifs <;> first | rfl | omega

theorem strCmp_append : ∀ (a b c d : Str), a.length = b.length →
    strCmp (a ++ c) (b ++ d) =
      match strCmp a b with
      | .eq => strCmp c d
      | .lt => .lt
      | .gt => .gt := by
  intro a
  induction a with
  | nil =>
    intro b c d hlen
    cases b with
    | nil => simp [strCmp]
    | cons y bs => simp at hlen
  | cons x as ih =>
    intro b c d hlen
    cases b with
    | nil => simp at hlen
    | cons y bs =>
      simp only [List.cons_append, strCmp]
      by_cases h1 : x < y
      · simp [h1]
      · by_cases h2 : y < x
        · simp [h1, h2]
        · simp only [if_neg h1, if_neg h2]
          exact ih bs c d (by simpa using hlen)

theorem strCmp_cons_same (a : Char) (c d : Str) :
    strCmp (a :: c) (a :: d) = strCmp c d := by
  simp [strCmp]

theorem digitChar_lt_iff {d e : Nat} (hd : d < 10) (he : e < 10) :
    digitChar d < digitChar e ↔ d < e := by
  interval_cases d <;> interval_cases e <;> decide

theorem strCmp_digitChar {d e : Nat} (hd : d < 10) (he : e < 10) :
    strCmp [digitChar d] [digitChar e] = natCmp d e := by
  simp only [strCmp, natCmp]
  by_cases h1 : d < e
  · rw [if_pos ((digitChar_lt_iff hd he).mpr h1), if_pos h1]
  · rw [if_neg (fun hc => h1 ((digitChar_lt_iff hd he).mp hc)), if_neg h1]
    by_cases h2 : e < d
    · rw [if_pos ((digitChar_lt_iff he hd).mpr h2), if_pos h2]
    · rw [if_neg (fun hc => h2 ((digitChar_lt_iff he hd).mp hc)), if_neg h2]

theorem digitsFix_cmp : ∀ (k m n : Nat), m < 10 ^ k → n < 10 ^ k →
    strCmp (digitsFix k m) (digitsFix k n) = natCmp m n := by
  intro k
  induction k with
  | zero =>
    intro m n hm hn
    simp only [pow_zero, Nat.lt_one_iff] at hm hn
    subst hm; subst hn
    decide
  | succ k ih =>
    intro m n hm hn
    have hm10 : m / 10 < 10 ^ k := by
      rw [Nat.div_lt_iff_lt_mul (by norm_num)]
      calc m < 10 ^ (k + 1) := hm
        _ = 10 ^ k * 10 := by rw [pow_succ]
    have hn10 : n / 10 < 10 ^ k := by
      rw [Nat.div_lt_iff_lt_mul (by norm_num)]
      calc n < 10 ^ (k + 1) := hn
        _ = 10 ^ k * 10 := by rw [pow_succ]
    simp only [digitsFix]
    rw [strCmp_append _ _ _ _ (by rw [digitsFix_length, digitsFix_length])]
    rw [ih (m / 10) (n / 10) hm10 hn10]
    rw [strCmp_digitChar (Nat.mod_lt m (by norm_num)) (Nat.mod_lt n (by norm_num))]
    cases hdiv : natCmp (m / 10) (n / 10) with
    | lt =>
      have := natCmp_eq_lt.mp hdiv
      symm
      rw [natCmp_eq_lt]
      omega
    | eq =>
      have := natCmp_eq_eq.mp hdiv
      exact (natCmp_div_mod m n this).symm
    | gt =>
      have hgt : n / 10 < m / 10 := by
        rcases Nat.lt_trichotomy (m / 10) (n / 10) with h | h | h
        · rw [natCmp_eq_lt.mpr h] at hdiv; cases hdiv
        · rw [natCmp_eq_eq.mpr h] at hdiv; cases hdiv
        · exact h
      symm
      unfold natCmp
      split_ifs <;> first | rfl | omega

theorem lenDigitsAux_le : ∀ (fuel n k : Nat), 1 ≤ k → n < 10 ^ k →
    lenDigitsAux fuel n ≤ k := by
  intro fuel
  induction fuel with
  | zero =>
    intro n k hk _
    simpa [lenDigitsAux] using hk
  | succ f ih =>
    intro n k hk hn
    simp only [lenDigitsAux]
    by_cases h10 : n < 10
    · rw [if_pos h10]; exact hk
    · rw [if_neg h10]
      have hk2 : 2 ≤ k := by
        cases k with
        | zero => omega
        | succ k2 =>
          cases k2 with
          | zero => rw [pow_one] at hn; omega
          | succ k3 => omega
      have hdiv : n / 10 < 10 ^ (k - 1) := by
        rw [Nat.div_lt_iff_lt_mul (by norm_num)]
        have hpow : 10 ^ (k - 1) * 10 = 10 ^ k := by
          rw [← pow_succ]
          congr 1
          omega
        rw [hpow]
        exact hn
      have := ih (n / 10) (k - 1) (by omega) hdiv
      omega

theorem fmt05Nat_eq_five {n : Nat} (h : n < 100000) :
    fmt05Nat n = digitsFix 5 n := by
  have hpow : (10 : Nat) ^ 5 = 100000 := by norm_num
  have hle : lenDigits n ≤ 5 :=
    lenDigitsAux_le n n 5 (by norm_num) (by rw [hpow]; exact h)
  unfold fmt05Nat
  rw [max_eq_left hle]

theorem strCmp_fmt05 {m n : Nat} (hm : m < 100000) (hn : n < 100000) :
    strCmp (fmt05Nat m) (fmt05Nat n) = natCmp m n := by
  have hpow : (10 : Nat) ^ 5 = 100000 := by norm_num
  rw [fmt05Nat_eq_five hm, fmt05Nat_eq_five hn]
  exact digitsFix_cmp 5 m n (by rw [hpow]; exact hm) (by rw [hpow]; exact hn)

theorem strCmp_join_blocks : ∀ (xs ys : List Str), xs.length = ys.length →
    (∀ x ∈ xs, x.length = 5) → (∀ y ∈ ys, y.length = 5) →
    strCmp (pyJoin '.' xs) (pyJoin '.' ys) = listCmpBy strCmp xs ys := by
  intro xs
  induction xs with
  | nil =>
    intro ys hlen _ _
    cases ys with
    | nil => rfl
    | cons y ys2 => simp at hlen
  | cons x xs ih =>
    intro ys hlen hx hy
    cases ys with
    | nil => simp at hlen
    | cons y ys2 =>
      have hxy : x.length = y.length := by
        rw [hx x (List.mem_cons_self x xs), hy y (List.mem_cons_self y ys2)]
      cases xs with
      | nil =>
        cases ys2 with
        | nil =>
          simp only [pyJoin, listCmpBy]
          cases hc : strCmp x y <;> rfl
        | cons y2 ys3 => simp at hlen
      | cons x2 xs2 =>
        cases ys2 with
        | nil => simp at hlen
        | cons y2 ys3 =>
          simp only [pyJoin, listCmpBy]
          rw [strCmp_append x y _ _ hxy, strCmp_cons_same]
          rw [ih (y2 :: ys3) (by simpa using hlen)
            (fun q hq => hx q (List.mem_cons_of_mem x hq))
            (fun q hq => hy q (List.mem_cons_of_mem y hq))]
          cases hc : strCmp x y <;> rfl

theorem listCmpBy_map {α β : Type} (f : α → β) (cmpb : β → β → Ordering)
    (cmpa : α → α → Ordering) :
    ∀ (xs ys : List α), (∀ x ∈ xs, ∀ y ∈ ys, cmpb (f x) (f y) = cmpa x y) →
      listCmpBy cmpb (xs.map f) (ys.map f) = listCmpBy cmpa xs ys := by
  intro xs
  induction xs with
  | nil =>
    intro ys _
    cases ys <;> rfl
  | cons x xs ih =>
    intro ys h
    cases ys with
    | nil => rfl
    | cons y ys2 =>
      simp only [List.map_cons, listCmpBy]
      rw [h x (List.mem_cons_self x xs) y (List.mem_cons_self y ys2)]
      rw [ih ys2 (fun q hq r hr =>
        h q (List.mem_cons_of_mem x hq) r (List.mem_cons_of_mem y hr))]

theorem isPySpace_of_digitChar {c : Char} (h : isDigitChar c = true) :
    isPySpace c = false := by
  simp only [isDigitChar, Bool.and_eq_true, decide_eq_true_eq] at h
  cases hb : isPySpace c
  · rfl
  · exfalso
    simp only [isPySpace, Bool.or_eq_true, Bool.and_eq_true,
      decide_eq_true_eq] at hb
    omega

theorem strip_digits {p : Str} (hne : p ≠ []) (hd : p.all isDigitChar = true) :
    ((p.dropWhile isPySpace).reverse.dropWhile isPySpace).reverse = p := by
  have hall := List.all_eq_true.mp hd
  have hdrop : p.dropWhile isPySpace = p := by
    cases p with
    | nil => rfl
    | cons c cs =>
      rw [List.dropWhile_cons,
        isPySpace_of_digitChar (hall c (List.mem_cons_self c cs))]
      simp
  rw [hdrop]
  cases hrev : p.reverse with
  | nil => exact absurd (List.reverse_eq_nil_iff.mp hrev) hne
  | cons d ds =>
    have hdmem : d ∈ p :=
      List.mem_reverse.mp (hrev ▸ List.mem_cons_self d ds)
    rw [List.dropWhile_cons, isPySpace_of_digitChar (hall d hdmem)]
    simp only [Bool.false_eq_true, if_false]
    rw [← hrev, List.reverse_reverse]

theorem pyInt?_digits {p : Str} (hne : p ≠ []) (hd : p.all isDigitChar = true) :
    pyInt? p = some ((digitsVal p : Nat) : Int) := by
  unfold pyInt?
  rw [strip_digits hne hd]
  cases p with
  | nil => exact absurd rfl hne
  | cons c cs =>
    have hall := List.all_eq_true.mp hd
    have hc := hall c (List.mem_cons_self c cs)
    simp only [isDigitChar, Bool.and_eq_true, decide_eq_true_eq] at hc
    have hplus : c ≠ '+' := by
      intro h
      subst h
      exact absurd hc (by decide)
    have hminus : c ≠ '-' := by
      intro h
      subst h
      exact absurd hc (by decide)
    simp only [if_neg hplus, if_neg hminus]
    unfold digitsToNat?
    rw [if_pos ⟨by simp, hd⟩]
    rfl

theorem fmt05_natCast (v : Nat) : fmt05 (v : Int) = fmt05Nat v := by
  unfold fmt05
  rw [if_neg (by omega), Int.natAbs_ofNat]

theorem expandVersion_digit_parts (v : Str)
    (h : ∀ p ∈ pySplit '.' v, p ≠ [] ∧ p.all isDigitChar = true) :
    expandVersion v =
      pyJoin '.' ((pySplit '.' v).map (fun p => fmt05Nat (digitsVal p))) := by
  unfold expandVersion
  congr 1
  apply List.map_congr_left
  intro p hp
  rw [pyInt?_digits (h p hp).1 (h p hp).2]
  exact fmt05_natCast (digitsVal p)

/-- C10: `expandVersion` is order-preserving on numeric versions.  For
two version strings with the same number of dot-separated components,
each a non-empty string of decimal digits whose value is below 100000,
lexicographic string comparison of the expansions agrees with
componentwise numeric comparison of the versions (the order the update
check relies on when it compares expanded versions with `>` and `<`). -/
theorem expandVersion_order (a b : Str)
    (hlen : (pySplit '.' a).length = (pySplit '.' b).length)
    (ha : ∀ p ∈ pySplit '.' a,
      p ≠ [] ∧ p.all isDigitChar = true ∧ digitsVal p < 100000)
    (hb : ∀ p ∈ pySplit '.' b,
      p ≠ [] ∧ p.all isDigitChar = true ∧ digitsVal p < 100000) :
    strCmp (expandVersion a) (expandVersion b) =
      listCmpBy natCmp ((pySplit '.' a).map digitsVal)
        ((pySplit '.' b).map digitsVal) := by
  rw [expandVersion_digit_parts a (fun p hp => ⟨(ha p hp).1, (ha p hp).2.1⟩),
    expandVersion_digit_parts b (fun p hp => ⟨(hb p hp).1, (hb p hp).2.1⟩)]
  rw [strCmp_join_blocks _ _ (by simp [hlen])
    (by
      intro x hx2
      rcases List.mem_map.mp hx2 with ⟨p, hp, rfl⟩
      rw [fmt05Nat_eq_five (ha p hp).2.2, digitsFix_length])
    (by
      intro y hy2
      rcases List.mem_map.mp hy2 with ⟨q, hq, rfl⟩
      rw [fmt05Nat_eq_five (hb q hq).2.2, digitsFix_length])]
  have hma : (pySplit '.' a).map (fun p => fmt05Nat (digitsVal p)) =
      ((pySplit '.' a).map digitsVal).map fmt05Nat := by
    rw [List.map_map]
    rfl
  have hmb : (pySplit '.' b).map (fun p => fmt05Nat (digitsVal p)) =
      ((pySplit '.' b).map digitsVal).map fmt05Nat := by
    rw [List.map_map]
    rfl
  rw [hma, hmb]
  apply listCmpBy_map fmt05Nat strCmp natCmp
  intro x hx2 y hy2
  rcases List.mem_map.mp hx2 with ⟨p, hp, rfl⟩
  rcases List.mem_map.mp hy2 with ⟨q, hq, rfl⟩
  exact strCmp_fmt05 (ha p hp).2.2 (hb q hq).2.2

/-- C10 witness: the versions `3.10` and `3.9` — string comparison of
the unexpanded strings would order them wrongly, but on the expansions
it agrees with the numeric comparison, which puts `3.10` last. -/
theorem expandVersion_order_witness :
    strCmp (expandVersion "3.10".data) (expandVersion "3.9".data) =
      listCmpBy natCmp ((pySplit '.' "3.10".data).map digitsVal)
        ((pySplit '.' "3.9".data).map digitsVal) ∧
    listCmpBy natCmp ((pySplit '.' "3.10".data).map digitsVal)
      ((pySplit '.' "3.9".data).map digitsVal) = .gt :=
  ⟨expandVersion_order "3.10".data "3.9".data (by decide) (by decide)
    (by decide), by decide⟩
